import Mathlib

/-!
Verification of the web-scraper-go repository against its specification.

The embedding below translates the repository's Go source into Lean:

* `WebCrawler`, `NewWebCrawler`, `onRequest`, `tryAdmit`, `onHTMLLink`,
  `GetFoundLinks`, `GetPagesVisited` come from the crawler file
  (`WebCrawler` and its colly callbacks).
* `cleanPrice`, `exportToCSV`, `Product` come from `main.go`.
* `shouldRetry`, `retryRun`, `scrapeValidate` come from the advanced
  `Scraper` in the test bundle (its `OnError` retry handler and `Scrape`).
* `parseGoURL`, `resolveReference`, `URL.render`, `absoluteURL` model the
  external `net/url` and colly `AbsoluteURL` machinery the source calls
  into; they follow the library contracts (RFC 3986 resolution, fragment
  splitting, opaque URLs) at the level of precision the source relies on.

Go strings are modelled as `String`/`List Char`; Go `int` as `Int`.
-/

/-! ## Character-level string helpers (models of Go `strings` functions) -/

/-- Model of `strings.HasPrefix` at the character-list level. -/
def listHasPre : List Char → List Char → Bool
  | [], _ => true
  | _ :: _, [] => false
  | p :: ps, c :: cs => p == c && listHasPre ps cs

/-- Splits a character list at the first occurrence of `sep`; the second
component is `none` when `sep` does not occur. -/
def splitFirst (sep : Char) : List Char → List Char × Option (List Char)
  | [] => ([], none)
  | c :: rest =>
    if c = sep then ([], some rest)
    else
      let r := splitFirst sep rest
      (c :: r.1, r.2)

/-- Breaks a character list at the first slash, keeping the slash in the
second component (as Go's `split(rest, '/', false)` does). -/
def breakAtSlash : List Char → List Char × List Char
  | [] => ([], [])
  | c :: rest =>
    if c = '/' then ([], c :: rest)
    else
      let r := breakAtSlash rest
      (c :: r.1, r.2)

/-- ASCII control characters (and DEL), which `net/url.Parse` rejects. -/
def isCtl (c : Char) : Bool := c.val < 32 || c.val == 127

/-- True when the list contains a character `net/url.Parse` rejects. -/
def hasCtl (l : List Char) : Bool := l.any isCtl

/-! ## URL data model (model of `net/url.URL`) -/

/-- Model of Go's `url.URL`: scheme, opaque part, host, path, query and
fragment components.  `opq` models the `Opaque` field. -/
structure URL where
  scheme : List Char
  opq : List Char
  host : List Char
  path : List Char
  query : List Char
  fragment : List Char
deriving DecidableEq

/-- Model of `url.URL.String`: reassembles the URL from its components. -/
def URL.render (u : URL) : List Char :=
  (if u.scheme.isEmpty then [] else u.scheme ++ [':']) ++
  (if u.opq.isEmpty then
    (if u.host.isEmpty then [] else '/' :: '/' :: u.host) ++ u.path
   else u.opq) ++
  (if u.query.isEmpty then [] else '?' :: u.query) ++
  (if u.fragment.isEmpty then [] else '#' :: u.fragment)

/-- Scheme scanner modelling `net/url`'s `getScheme`: accumulates
`ALPHA *(ALPHA / DIGIT / "+" / "-" / ".")` before a colon.  Returns
`(scheme, rest)`, with an empty scheme when the input has none, and `none`
for the `":foo"` parse error. -/
def getSchemeAux (orig : List Char) : List Char → List Char → Option (List Char × List Char)
  | [], _ => some ([], orig)
  | c :: rest, acc =>
    if c.isAlpha then getSchemeAux orig rest (acc ++ [c])
    else if c.isDigit || c == '+' || c == '-' || c == '.' then
      (if acc.isEmpty then some ([], orig) else getSchemeAux orig rest (acc ++ [c]))
    else if c == ':' then
      (if acc.isEmpty then none else some (acc, rest))
    else some ([], orig)

/-- Model of `net/url`'s `getScheme`. -/
def getScheme (l : List Char) : Option (List Char × List Char) := getSchemeAux l l []

/-- Parses everything before the fragment: scheme, then query split at the
first `?`, then either an opaque part (scheme present, rest not starting
with `/`), an authority (`//host`), or a bare path.  Models `net/url.parse`
with the fragment already removed. -/
def parseCore (bf : List Char) : Option URL :=
  match getScheme bf with
  | none => none
  | some (schemeChars, rest) =>
    let scheme := schemeChars.map Char.toLower
    let split := splitFirst '?' rest
    let query : List Char := match split.2 with | none => [] | some q => q
    if !schemeChars.isEmpty && !listHasPre ['/'] split.1 then
      some { scheme := scheme, opq := split.1, host := [], path := [],
             query := query, fragment := [] }
    else if listHasPre ['/', '/'] split.1 then
      let after := split.1.drop 2
      let hostPath := breakAtSlash after
      some { scheme := scheme, opq := [], host := hostPath.1, path := hostPath.2,
             query := query, fragment := [] }
    else
      some { scheme := scheme, opq := [], host := [], path := split.1,
             query := query, fragment := [] }

/-- Model of `net/url.Parse`: rejects control characters, splits the
fragment at the first `#`, and parses the remainder with `parseCore`. -/
def parseGoURL (s : String) : Option URL :=
  let l := s.toList
  if hasCtl l then none
  else
    let split := splitFirst '#' l
    match parseCore split.1 with
    | none => none
    | some u =>
      some { u with fragment := match split.2 with | none => [] | some f => f }

/-! ## Reference resolution (model of `net/url.ResolveReference`) -/

/-- Drops the final path segment, keeping everything up to and including
the last slash (Go's `base[:strings.LastIndex(base, "/")+1]`). -/
def dropLastSegAux : List Char → List Char
  | [] => []
  | c :: rest => if c = '/' then c :: rest else dropLastSegAux rest

/-- Keeps a path up to and including its last slash. -/
def dropLastSegment (l : List Char) : List Char := (dropLastSegAux l.reverse).reverse

/-- Merges a base path with a reference path (RFC 3986 section 5.3 merge,
as in Go's `resolvePath`). -/
def mergePaths (base ref : List Char) : List Char :=
  if ref.isEmpty then base
  else if listHasPre ['/'] ref then ref
  else dropLastSegment base ++ ref

/-- Splits a path on slashes (the slashes are not kept). -/
def splitOnSlashAux : List Char → List (List Char)
  | [] => [[]]
  | c :: rest =>
    let r := splitOnSlashAux rest
    if c = '/' then [] :: r
    else (c :: r.headD []) :: r.tail

/-- Joins path segments with slashes. -/
def joinSlash : List (List Char) → List Char
  | [] => []
  | [s] => s
  | s :: rest => s ++ '/' :: joinSlash rest

/-- Removes `.` and `..` segments (RFC 3986 remove-dot-segments, as done
by Go's `resolvePath`); the accumulator holds output segments reversed. -/
def rdsAux : List (List Char) → List (List Char) → List (List Char)
  | [], acc => acc.reverse
  | s :: rest, acc =>
    if s = ['.'] then
      (if rest.isEmpty then ([] :: acc).reverse else rdsAux rest acc)
    else if s = ['.', '.'] then
      (if rest.isEmpty then ([] :: acc.tail).reverse else rdsAux rest acc.tail)
    else rdsAux rest (s :: acc)

/-- Model of `net/url`'s `resolvePath`: merge, remove dot segments, and
produce a path with a leading slash (empty input gives an empty path). -/
def resolvePath (base ref : List Char) : List Char :=
  let full := mergePaths base ref
  if full.isEmpty then []
  else
    let segs := splitOnSlashAux full
    let segs2 := if segs.headD [] = [] then segs.tail else segs
    '/' :: joinSlash (rdsAux segs2 [])

/-- Model of `net/url.URL.ResolveReference` (RFC 3986 section 5.3). -/
def resolveReference (u ref : URL) : URL :=
  let sch := if ref.scheme.isEmpty then u.scheme else ref.scheme
  if !ref.scheme.isEmpty || !ref.host.isEmpty then
    { ref with scheme := sch, path := resolvePath ref.path [] }
  else if !ref.opq.isEmpty then
    { ref with scheme := sch, host := [], path := [] }
  else if ref.path.isEmpty && ref.query.isEmpty then
    { scheme := sch, opq := ref.opq, host := u.host,
      path := resolvePath u.path [],
      query := u.query,
      fragment := if ref.fragment.isEmpty then u.fragment else ref.fragment }
  else
    { scheme := sch, opq := ref.opq, host := u.host,
      path := resolvePath u.path ref.path,
      query := ref.query, fragment := ref.fragment }

/-- Model of colly's `Request.AbsoluteURL`: returns `""` for pure-fragment
links and unparsable links, otherwise resolves against the request URL and
re-serializes. -/
def absoluteURL (base : URL) (link : String) : String :=
  if listHasPre ['#'] link.toList then ""
  else
    match parseGoURL link with
    | none => ""
    | some ref => (resolveReference base ref).render.asString

/-! ## The WebCrawler (from the crawler source file) -/

/-- State of `WebCrawler`: the visited-URL set, discovered links, page
budget and counter, plus the collector configuration recorded by
`NewWebCrawler` (allowed domains, `colly.MaxDepth(3)`). -/
structure WebCrawler where
  visitedURLs : List String
  foundLinks : List String
  maxPages : Int
  pagesVisited : Int
  allowedDomains : List String
  collectorMaxDepth : Nat
deriving DecidableEq

/-- `NewWebCrawler(allowedDomains, maxPages)`: empty visited set and link
list, zero pages visited, collector configured with `MaxDepth(3)`.  No
validation of any argument is performed. -/
def NewWebCrawler (allowedDomains : List String) (maxPages : Int) : WebCrawler :=
  { visitedURLs := [], foundLinks := [], maxPages := maxPages, pagesVisited := 0,
    allowedDomains := allowedDomains, collectorMaxDepth := 3 }

/-- The `OnRequest` callback: unconditionally increments `pagesVisited`
(under the mutex) and reports the current count. -/
def onRequest (wc : WebCrawler) : WebCrawler × Int :=
  ({ wc with pagesVisited := wc.pagesVisited + 1 }, wc.pagesVisited + 1)

/-- The visited-set check-and-insert from the `OnHTML` handler (the
spec's `TryAdmit`): under the mutex, checks `!wc.visitedURLs[url]`, and on
absence marks the URL visited and appends it to `foundLinks`. -/
def tryAdmit (wc : WebCrawler) (u : String) : Bool × WebCrawler :=
  if wc.visitedURLs.contains u then (false, wc)
  else (true, { wc with visitedURLs := u :: wc.visitedURLs,
                        foundLinks := wc.foundLinks ++ [u] })

/-- The filtering and normalization prefix of the `OnHTML("a[href]")`
handler: skip empty, `#`-anchored and `javascript:` links, convert to an
absolute URL, parse it, erase the fragment, and re-serialize. -/
def normalizeLink (base : URL) (link : String) : Option String :=
  if link.toList.isEmpty || listHasPre ['#'] link.toList
      || listHasPre "javascript:".toList link.toList then none
  else
    let absU := absoluteURL base link
    if absU.toList.isEmpty then none
    else
      match parseGoURL absU with
      | none => none
      | some parsedURL => some ((URL.render { parsedURL with fragment := [] }).asString)

/-- The complete `OnHTML("a[href]")` handler: normalize the link, stop if
the page budget is exhausted (`pagesVisited >= maxPages`), then admit via
the check-and-insert; an admitted URL is returned for `Request.Visit`. -/
def onHTMLLink (wc : WebCrawler) (base : URL) (link : String) : WebCrawler × Option String :=
  match normalizeLink base link with
  | none => (wc, none)
  | some n =>
    if wc.maxPages ≤ wc.pagesVisited then (wc, none)
    else
      let r := tryAdmit wc n
      if r.1 then (r.2, some n) else (r.2, none)

/-- One observed link discovery: the page URL it was found on, the raw
href value, and whether colly's own checks (allowed domain, its revisit
set, depth) let the subsequent `Visit` dispatch a fetch. -/
structure Discovery where
  base : URL
  link : String
  fetchOK : Bool

/-- Processing of one discovery in the synchronous collector: run the
`OnHTML` handler; when it admits a URL and colly dispatches the visit, the
`OnRequest` callback increments `pagesVisited`. -/
def crawlStep (wc : WebCrawler) (d : Discovery) : WebCrawler × Option String :=
  let r := onHTMLLink wc d.base d.link
  match r.2 with
  | none => (r.1, none)
  | some n => (if d.fetchOK then (onRequest r.1).1 else r.1, some n)

/-- A crawl run over a sequence of link discoveries; returns the final
crawler state and the list of admitted URLs (one per created task). -/
def crawlRun : WebCrawler → List Discovery → WebCrawler × List String
  | wc, [] => (wc, [])
  | wc, d :: ds =>
    let r := crawlStep wc d
    let rest := crawlRun r.1 ds
    (rest.1, r.2.toList ++ rest.2)

/-- `Crawl(startURL)`: the seed visit dispatches a fetch (incrementing
`pagesVisited` via `OnRequest`, with no budget check) whenever colly's
checks pass, after which discoveries are processed. -/
def crawl (wc : WebCrawler) (seedFetchOK : Bool) (ds : List Discovery) :
    WebCrawler × List String :=
  crawlRun (if seedFetchOK then (onRequest wc).1 else wc) ds

/-- Element-wise copy, modelling `make` + `copy` in `GetFoundLinks`. -/
def copyList : List String → List String
  | [] => []
  | x :: rest => x :: copyList rest

/-- `GetFoundLinks`: returns a copy of the discovered links. -/
def GetFoundLinks (wc : WebCrawler) : List String := copyList wc.foundLinks

/-- `GetPagesVisited`: returns the page counter. -/
def GetPagesVisited (wc : WebCrawler) : Int := wc.pagesVisited

/-! ## Slice aliasing model for `GetFoundLinks` -/

/-- A minimal heap of string slices, to express the aliasing behaviour of
`GetFoundLinks` (the Go slice it returns must not alias the internal
`foundLinks` backing array). -/
structure SliceHeap where
  slices : List (List String)
deriving DecidableEq

/-- Reads the contents of a slice identifier. -/
def readSlice (h : SliceHeap) (sid : Nat) : List String := (h.slices.get? sid).getD []

/-- Allocates a fresh slice (`make([]string, n)` followed by filling). -/
def allocSlice (h : SliceHeap) (content : List String) : SliceHeap × Nat :=
  ({ slices := h.slices ++ [content] }, h.slices.length)

/-- In-place update of one element of a slice (mutation through a Go
slice reference). -/
def writeSlice (h : SliceHeap) (sid i : Nat) (v : String) : SliceHeap :=
  { slices := h.slices.set sid (((h.slices.get? sid).getD []).set i v) }

/-- A crawler as seen by the heap model: it owns the `foundLinks` slice. -/
structure CrawlerRef where
  foundLinksId : Nat
deriving DecidableEq

/-- `GetFoundLinks` in the heap model: `links := make([]string, len)`,
`copy(links, wc.foundLinks)`, `return links` — allocate a fresh slice
holding an element-wise copy and return its identifier. -/
def getFoundLinksRef (h : SliceHeap) (wc : CrawlerRef) : SliceHeap × Nat :=
  allocSlice h (copyList (readSlice h wc.foundLinksId))

/-! ## The advanced Scraper (retry handler and Scrape validation) -/

/-- The retry condition of the `Scraper`'s `OnError` callback: retry
exactly when the response status is 429 or 503. -/
def shouldRetry (statusCode : Int) : Bool := statusCode == 429 || statusCode == 503

/-- The handler sleeps `time.Sleep(5 * time.Second)` on the worker
goroutine before calling `r.Request.Retry()`. -/
def retrySleepSeconds : Nat := 5

/-- Observable retry history of one task: fetch attempts performed,
whether the task was ever marked dropped, and seconds the handler spent
blocking the worker in `time.Sleep`. -/
structure RetryObs where
  attempts : Nat
  dropped : Bool
  blockedSeconds : Nat
deriving DecidableEq

/-- State of a task after its initial dispatch and `n` subsequent error
responses of the given status, per the `OnError` handler: each 429/503
response blocks the worker five seconds and re-issues the request; no
attempt counter exists and nothing ever transitions to a dropped state. -/
def retryRun (statusCode : Int) : Nat → RetryObs
  | 0 => { attempts := 1, dropped := false, blockedSeconds := 0 }
  | n + 1 =>
    let o := retryRun statusCode n
    if shouldRetry statusCode then
      { attempts := o.attempts + 1, dropped := false,
        blockedSeconds := o.blockedSeconds + retrySleepSeconds }
    else o

/-- The validation performed by `Scraper.Scrape` before visiting: only
`url.Parse(startURL)` is checked; no numeric configuration is examined. -/
def scrapeValidate (startURL : String) : Except String Unit :=
  match parseGoURL startURL with
  | none => Except.error "invalid URL"
  | some _ => Except.ok ()

/-! ## cleanPrice (from main.go) -/

/-- Model of Go's `unicode.IsSpace` (the whitespace set used by
`strings.TrimSpace`): ASCII whitespace, NEL, NBSP and the Unicode
White_Space code points. -/
def isGoSpace (c : Char) : Bool :=
  c == ' ' || c == '\t' || c == '\n' || c.val == 11 || c.val == 12 || c == '\r' ||
  c.val == 0x85 || c.val == 0xA0 || c.val == 0x1680 ||
  (0x2000 ≤ c.val && c.val ≤ 0x200A) ||
  c.val == 0x2028 || c.val == 0x2029 || c.val == 0x202F || c.val == 0x205F ||
  c.val == 0x3000

/-- Drops leading whitespace characters. -/
def trimLeft : List Char → List Char
  | [] => []
  | c :: rest => if isGoSpace c then trimLeft rest else c :: rest

/-- Model of `strings.TrimSpace`: drop leading and trailing whitespace. -/
def trimSpace (l : List Char) : List Char := (trimLeft (trimLeft l).reverse).reverse

/-- `strings.ReplaceAll(price, "\n", " ")`. -/
def replaceNewlines (l : List Char) : List Char :=
  l.map fun c => if c = '\n' then ' ' else c

/-- `strings.ReplaceAll(price, "\t", "")`. -/
def removeTabs (l : List Char) : List Char := l.filter fun c => c ≠ '\t'

/-- `strings.Contains(price, "  ")`: two consecutive spaces occur. -/
def containsDouble : List Char → Bool
  | [] => false
  | [_] => false
  | c₁ :: c₂ :: rest =>
    if c₁ = ' ' ∧ c₂ = ' ' then true else containsDouble (c₂ :: rest)

/-- `strings.ReplaceAll(price, "  ", " ")`: replaces non-overlapping
occurrences left to right. -/
def replaceDouble : List Char → List Char
  | [] => []
  | [c] => [c]
  | c₁ :: c₂ :: rest =>
    if c₁ = ' ' ∧ c₂ = ' ' then ' ' :: replaceDouble rest
    else c₁ :: replaceDouble (c₂ :: rest)

theorem replaceDouble_length_le : ∀ l : List Char, (replaceDouble l).length ≤ l.length
  | [] => by simp [replaceDouble]
  | [c] => by simp [replaceDouble]
  | c₁ :: c₂ :: rest => by
    rw [replaceDouble]
    split
    · have := replaceDouble_length_le rest
      simp only [List.length_cons]
      omega
    · have := replaceDouble_length_le (c₂ :: rest)
      simp only [List.length_cons] at *
      omega

theorem replaceDouble_length_lt : ∀ l : List Char, containsDouble l = true →
    (replaceDouble l).length < l.length
  | [], h => by simp [containsDouble] at h
  | [c], h => by simp [containsDouble] at h
  | c₁ :: c₂ :: rest, h => by
    rw [containsDouble] at h
    rw [replaceDouble]
    split
    · have := replaceDouble_length_le rest
      simp only [List.length_cons]
      omega
    · rename_i hne
      rw [if_neg hne] at h
      have := replaceDouble_length_lt (c₂ :: rest) h
      simp only [List.length_cons] at *
      omega

/-- The collapsing loop: `for strings.Contains(price, "  ") { price =
strings.ReplaceAll(price, "  ", " ") }`. -/
def collapseSpaces (l : List Char) : List Char :=
  if h : containsDouble l = true then collapseSpaces (replaceDouble l) else l
termination_by l.length
decreasing_by exact replaceDouble_length_lt l h

/-- `cleanPrice` on character lists: trim, replace newlines with spaces,
delete tabs, collapse runs of spaces. -/
def cleanPriceChars (l : List Char) : List Char :=
  collapseSpaces (removeTabs (replaceNewlines (trimSpace l)))

/-- `cleanPrice` from main.go. -/
def cleanPrice (price : String) : String := (cleanPriceChars price.toList).asString

/-! ## CSV export (from main.go) -/

/-- Model of Go's `time.Time` at the precision `Format(time.RFC3339)`
observes: a broken-down UTC-offset timestamp. -/
structure GoTime where
  year : Nat
  month : Nat
  day : Nat
  hour : Nat
  minute : Nat
  second : Nat
  tzOffsetMinutes : Int
deriving DecidableEq

/-- Zero-pads a number to two digits. -/
def pad2 (n : Nat) : String := if n < 10 then "0" ++ toString n else toString n

/-- Zero-pads a number to four digits. -/
def pad4 (n : Nat) : String :=
  if n < 10 then "000" ++ toString n
  else if n < 100 then "00" ++ toString n
  else if n < 1000 then "0" ++ toString n
  else toString n

/-- Model of `t.Format(time.RFC3339)`. -/
def formatRFC3339 (t : GoTime) : String :=
  pad4 t.year ++ "-" ++ pad2 t.month ++ "-" ++ pad2 t.day ++ "T" ++
  pad2 t.hour ++ ":" ++ pad2 t.minute ++ ":" ++ pad2 t.second ++
  (if t.tzOffsetMinutes = 0 then "Z"
   else (if t.tzOffsetMinutes < 0 then "-" else "+") ++
     pad2 (t.tzOffsetMinutes.natAbs / 60) ++ ":" ++ pad2 (t.tzOffsetMinutes.natAbs % 60))

/-- `Product` from main.go. -/
structure Product where
  url : String
  image : String
  name : String
  price : String
  scrapedAt : GoTime
deriving DecidableEq

/-- The header row written by `exportToCSV`. -/
def csvHeader : List String := ["Name", "Price", "URL", "Image", "Scraped At"]

/-- The per-product row written by `exportToCSV`. -/
def productRow (p : Product) : List String :=
  [p.name, p.price, p.url, p.image, formatRFC3339 p.scrapedAt]

/-- The `for _, product := range products` loop body of `exportToCSV`. -/
def writeRows : List Product → List (List String)
  | [] => []
  | p :: rest => productRow p :: writeRows rest

/-- `exportToCSV`, modelled as the sequence of CSV records it writes:
the header row followed by one row per product. -/
def exportToCSV (products : List Product) : List (List String) :=
  csvHeader :: writeRows products

/-! ## Depth-bounded frontier (modelled from the spec) -/

/-- `CrawlTask` from the spec's data model: a normalized URL plus the
depth it was discovered at. -/
structure CrawlTask where
  url : String
  depth : Nat
deriving DecidableEq

/-- Modelled from the spec: the depth-bound enqueue rule of the crawl
engine — "each newly admitted link becomes a new `CrawlTask` at `depth+1`,
enqueued only if `depth+1 <= maxDepth`".  The enforcement itself lives in
the colly dependency (configured via `colly.MaxDepth(3)` in
`NewWebCrawler`), not in the repository source. -/
def enqueueChildren (maxDepth d : Nat) (links : List String) : List CrawlTask :=
  if d + 1 ≤ maxDepth then links.map (fun u => { url := u, depth := d + 1 }) else []

/-- Modelled from the spec: frontier processing — workers repeatedly take
a task from the frontier, dispatch it, and enqueue the links discovered on
it under the depth rule.  `linksOf` abstracts extraction; `fuel` bounds
the run length.  Returns the dispatched tasks. -/
def frontierRun (maxDepth : Nat) (linksOf : String → List String) :
    Nat → List CrawlTask → List CrawlTask → List CrawlTask
  | 0, _, dispatched => dispatched
  | _ + 1, [], dispatched => dispatched
  | fuel + 1, t :: rest, dispatched =>
    frontierRun maxDepth linksOf fuel
      (rest ++ enqueueChildren maxDepth t.depth (linksOf t.url))
      (dispatched ++ [t])

/-- The base URL `http://example.com/` used for concrete link-handling
facts (the request URL a link is resolved against). -/
def exBase : URL :=
  { scheme := "http".toList, opq := [], host := "example.com".toList,
    path := "/".toList, query := [], fragment := [] }

/-! ## Theorems -/

theorem writeRows_get? : ∀ (ps : List Product) (i : Nat),
    (writeRows ps).get? i = (ps.get? i).map productRow
  | [], i => by cases i <;> rfl
  | p :: rest, 0 => by rfl
  | p :: rest, i + 1 => by
    simpa [writeRows] using writeRows_get? rest i

theorem writeRows_length : ∀ ps : List Product, (writeRows ps).length = ps.length
  | [] => rfl
  | p :: rest => by simp [writeRows, writeRows_length rest]

/-- C9: `exportToCSV` writes exactly one header row `["Name", "Price",
"URL", "Image", "Scraped At"]` followed by one row per product in input
order, each row being `[Name, Price, URL, Image, ScrapedAt in RFC3339]`;
on an empty list only the header row is written. -/
theorem exportToCSV_rows_spec (ps : List Product) :
    (exportToCSV ps).get? 0 = some ["Name", "Price", "URL", "Image", "Scraped At"] ∧
    (∀ i : Nat, (exportToCSV ps).get? (i + 1) =
      (ps.get? i).map fun p =>
        [p.name, p.price, p.url, p.image, formatRFC3339 p.scrapedAt]) ∧
    (exportToCSV ps).length = ps.length + 1 ∧
    exportToCSV [] = [csvHeader] := by
  refine ⟨rfl, fun i => ?_, ?_, rfl⟩
  · simpa [exportToCSV, productRow] using writeRows_get? ps i
  · simp [exportToCSV, writeRows_length]

/-- C5 counterexample: a task whose fetches always return HTTP 429 has,
after one hundred consecutive failures, been dispatched 101 times, has
spent 500 seconds blocking its worker in `time.Sleep`, has never been
recorded as dropped, and will be retried yet again — there is no
`maxAttempts` bound and no `Dropped` transition in the code. -/
theorem retry_never_dropped_concrete :
    retryRun 429 100 = { attempts := 101, dropped := false, blockedSeconds := 500 } ∧
    shouldRetry 429 = true := by
  exact ⟨by decide, rfl⟩

/-- C5 amended: on a 429 or 503 response the `OnError` handler blocks the
worker for five seconds (`time.Sleep`) and re-issues the request; there is
no attempt bound, so a persistently transient-failing URL is retried once
per failure forever and is never recorded as dropped. -/
theorem retry_unbounded_blocking (s : Int) (n : Nat) :
    (retryRun s n).dropped = false ∧
    (retryRun 429 n).attempts = n + 1 ∧
    (retryRun 429 n).blockedSeconds = retrySleepSeconds * n ∧
    (shouldRetry s = true ↔ s = 429 ∨ s = 503) := by
  refine ⟨?_, ?_, ?_, ?_⟩
  · induction n with
    | zero => rfl
    | succ k ih =>
      rw [retryRun]
      split
      · rfl
      · exact ih
  · induction n with
    | zero => rfl
    | succ k ih => rw [retryRun]; simp [shouldRetry, ih]
  · induction n with
    | zero => rfl
    | succ k ih =>
      rw [retryRun]
      simp only [shouldRetry]
      norm_num
      rw [ih]
      ring
  · simp [shouldRetry]

/-- C7 counterexample: `NewWebCrawler` accepts a negative `maxPages`
without any failure, and `Crawl` on the resulting crawler still dispatches
the seed fetch (incrementing `pagesVisited` to 1) — invalid configuration
does not make the run fail before a fetch occurs. -/
theorem config_not_validated_concrete :
    (NewWebCrawler ["example.com"] (-5)).maxPages = -5 ∧
    (crawl (NewWebCrawler ["example.com"] (-5)) true []).1.pagesVisited = 1 ∧
    scrapeValidate "http://example.com" = Except.ok () := by
  exact ⟨rfl, rfl, rfl⟩

/-- C7 amended: no numeric configuration is validated — `NewWebCrawler`
is total and stores any `maxPages` (including negative values) verbatim
into a working crawler; the only start-of-run validation in the code base
is `Scraper.Scrape` checking that the start URL parses. -/
theorem config_validation_spec :
    (∀ (doms : List String) (m : Int),
      NewWebCrawler doms m =
        { visitedURLs := [], foundLinks := [], maxPages := m, pagesVisited := 0,
          allowedDomains := doms, collectorMaxDepth := 3 }) ∧
    (∀ s : String, scrapeValidate s = Except.ok () ↔ (parseGoURL s).isSome = true) := by
  constructor
  · intro doms m; rfl
  · intro s
    unfold scrapeValidate
    cases h : parseGoURL s <;> simp

/-- C2 counterexample: with `maxPages = 0` the seed fetch is still
dispatched (the `OnRequest` counter increment has no budget check), so
`pagesVisited` reaches 1 > 0 = `maxPages` and the number of dispatched
fetches exceeds the budget. -/
theorem budget_exceeded_at_zero_maxPages :
    (crawl (NewWebCrawler ["go-colly.org"] 0) true []).1.pagesVisited = 1 ∧
    ¬ ((crawl (NewWebCrawler ["go-colly.org"] 0) true []).1.pagesVisited ≤
        (NewWebCrawler ["go-colly.org"] 0).maxPages) := by
  exact ⟨rfl, by decide⟩

/-- C3 counterexample: a `mailto:` link — a non-http(s) scheme the claim
says is rejected — passes the handler's normalization and is returned for
admission: only empty, `#`-anchored and `javascript:` links are filtered. -/
theorem normalizeLink_admits_mailto :
    normalizeLink exBase "mailto:user@example.com" = some "mailto:user@example.com" ∧
    normalizeLink exBase "mailto:user@example.com" ≠ none := by
  refine ⟨by decide, by decide⟩

/-- C3 amended: link normalization returns not-ok exactly when the raw
link is empty, starts with `#`, starts with `javascript:`, the
absolute-URL conversion yields the empty string, or the absolute URL
fails to parse; other non-http(s) schemes (e.g. `mailto:`) are NOT
rejected here.  The spec's three rejected shapes are rejected. -/
theorem normalizeLink_none_iff (base : URL) (link : String) :
    (normalizeLink base link = none ↔
      (link.toList.isEmpty = true ∨ listHasPre ['#'] link.toList = true ∨
       listHasPre "javascript:".toList link.toList = true ∨
       (absoluteURL base link).toList.isEmpty = true ∨
       parseGoURL (absoluteURL base link) = none)) ∧
    normalizeLink base "" = none ∧
    normalizeLink base "#anchor" = none ∧
    normalizeLink base "javascript:void(0)" = none := by
  refine ⟨?_, rfl, rfl, rfl⟩
  unfold normalizeLink
  by_cases hA : (link.toList.isEmpty || listHasPre ['#'] link.toList
      || listHasPre "javascript:".toList link.toList) = true
  · rw [if_pos hA]
    simp only [Bool.or_eq_true] at hA
    exact iff_of_true rfl (by tauto)
  · rw [if_neg hA]
    simp only [Bool.or_eq_true, not_or, Bool.not_eq_true] at hA
    obtain ⟨⟨h1, h2⟩, h3⟩ := hA
    by_cases hB : (absoluteURL base link).toList.isEmpty = true
    · rw [if_pos hB]
      exact iff_of_true rfl (Or.inr (Or.inr (Or.inr (Or.inl hB))))
    · rw [if_neg hB]
      cases hC : parseGoURL (absoluteURL base link) with
      | none => exact iff_of_true rfl (Or.inr (Or.inr (Or.inr (Or.inr rfl))))
      | some u =>
        refine iff_of_false (by simp) ?_
        rintro (h | h | h | h | h)
        · rw [h1] at h; exact Bool.noConfusion h
        · rw [h2] at h; exact Bool.noConfusion h
        · rw [h3] at h; exact Bool.noConfusion h
        · exact hB h
        · exact Option.noConfusion h

theorem tryAdmit_cases (wc : WebCrawler) (u : String) :
    (wc.visitedURLs.contains u = true ∧ tryAdmit wc u = (false, wc)) ∨
    (wc.visitedURLs.contains u = false ∧
      tryAdmit wc u = (true, { wc with visitedURLs := u :: wc.visitedURLs,
                                       foundLinks := wc.foundLinks ++ [u] })) := by
  unfold tryAdmit
  by_cases h : wc.visitedURLs.contains u = true
  · exact Or.inl ⟨h, by rw [if_pos h]⟩
  · exact Or.inr ⟨by simpa using h, by rw [if_neg h]⟩

theorem onHTMLLink_cases (wc : WebCrawler) (b : URL) (l : String) :
    onHTMLLink wc b l = (wc, none) ∨
    (∃ n, normalizeLink b l = some n ∧ wc.pagesVisited < wc.maxPages ∧
      wc.visitedURLs.contains n = false ∧
      onHTMLLink wc b l =
        ({ wc with visitedURLs := n :: wc.visitedURLs,
                   foundLinks := wc.foundLinks ++ [n] }, some n)) := by
  unfold onHTMLLink
  cases hN : normalizeLink b l with
  | none => exact Or.inl rfl
  | some n =>
    dsimp only
    by_cases hb : wc.maxPages ≤ wc.pagesVisited
    · rw [if_pos hb]; exact Or.inl rfl
    · rw [if_neg hb]
      rcases tryAdmit_cases wc n with ⟨hv, he⟩ | ⟨hv, he⟩
      · rw [he]; exact Or.inl rfl
      · rw [he]; exact Or.inr ⟨n, rfl, by omega, hv, rfl⟩

theorem crawlStep_cases (wc : WebCrawler) (d : Discovery) :
    crawlStep wc d = (wc, none) ∨
    (∃ n, wc.visitedURLs.contains n = false ∧ wc.pagesVisited < wc.maxPages ∧
      (crawlStep wc d).2 = some n ∧
      (crawlStep wc d).1.visitedURLs = n :: wc.visitedURLs ∧
      (crawlStep wc d).1.foundLinks = wc.foundLinks ++ [n] ∧
      (crawlStep wc d).1.maxPages = wc.maxPages ∧
      ((crawlStep wc d).1.pagesVisited = wc.pagesVisited ∨
        (crawlStep wc d).1.pagesVisited = wc.pagesVisited + 1)) := by
  unfold crawlStep
  rcases onHTMLLink_cases wc d.base d.link with he | ⟨n, hN, hb, hv, he⟩
  · rw [he]; exact Or.inl rfl
  · rw [he]
    dsimp only
    by_cases hf : d.fetchOK = true
    · rw [if_pos hf]
      exact Or.inr ⟨n, hv, hb, rfl, rfl, rfl, rfl, Or.inr rfl⟩
    · rw [if_neg hf]
      exact Or.inr ⟨n, hv, hb, rfl, rfl, rfl, rfl, Or.inl rfl⟩

theorem crawlRun_count (u : String) : ∀ (ds : List Discovery) (wc : WebCrawler),
    (crawlRun wc ds).2.count u ≤ (if wc.visitedURLs.contains u = true then 0 else 1)
  | [], wc => by simp [crawlRun]
  | d :: ds, wc => by
    rw [crawlRun]
    dsimp only
    rcases crawlStep_cases wc d with he | ⟨n, hv, hb, h2, h3, h4, h5, h6⟩
    · rw [he]
      dsimp only
      simpa using crawlRun_count u ds wc
    · have hrec := crawlRun_count u ds (crawlStep wc d).1
      rw [h3] at hrec
      rw [h2, Option.toList_some, List.count_append]
      by_cases hun : u = n
      · subst hun
        have hc : (u :: wc.visitedURLs).contains u = true := by simp
        rw [hc, if_pos rfl] at hrec
        have h1 : List.count u [u] = 1 := by simp
        rw [hv, h1]
        simp only [Bool.false_eq_true, if_false]
        omega
      · have hcons : (n :: wc.visitedURLs).contains u = wc.visitedURLs.contains u := by
          rw [List.contains_cons, beq_eq_false_iff_ne.mpr hun, Bool.false_or]
        rw [hcons] at hrec
        have h0 : List.count u [n] = 0 := by
          simp [List.count_singleton']
          exact fun a => hun (id (Eq.symm a))
        rw [h0]
        omega

/-- C1: admission via the visited-set check-and-insert is first-claim —
`tryAdmit` on an unvisited URL returns admission and inserts it, any
admission attempt on a visited URL is rejected, and over any sequence of
discoveries at most one crawl task is ever created per normalized URL. -/
theorem tryAdmit_first_claim_unique (wc : WebCrawler) (u : String)
    (h : wc.visitedURLs.contains u = false) :
    (tryAdmit wc u).1 = true ∧
    ((tryAdmit wc u).2).visitedURLs.contains u = true ∧
    (∀ wc2 : WebCrawler, wc2.visitedURLs.contains u = true →
      (tryAdmit wc2 u).1 = false) ∧
    (∀ ds : List Discovery, (crawlRun wc ds).2.count u ≤ 1) := by
  have hne : ¬ wc.visitedURLs.contains u = true := by
    rw [h]; exact Bool.false_ne_true
  refine ⟨?_, ?_, ?_, ?_⟩
  · unfold tryAdmit
    rw [if_neg hne]
  · unfold tryAdmit
    rw [if_neg hne]
    simp
  · intro wc2 h2
    unfold tryAdmit
    rw [if_pos h2]
  · intro ds
    have := crawlRun_count u ds wc
    rw [h] at this
    simpa using this

/-- C1 witness at a fresh crawler and the spec's property-test URL. -/
theorem tryAdmit_first_claim_unique_witness :
    (NewWebCrawler ["example.com"] 10).visitedURLs.contains "http://x/a" = false ∧
    (tryAdmit (NewWebCrawler ["example.com"] 10) "http://x/a").1 = true ∧
    (crawlRun (NewWebCrawler ["example.com"] 10) []).2.count "http://x/a" ≤ 1 := by
  refine ⟨rfl, ?_, ?_⟩
  · exact (tryAdmit_first_claim_unique (NewWebCrawler ["example.com"] 10)
      "http://x/a" rfl).1
  · exact (tryAdmit_first_claim_unique (NewWebCrawler ["example.com"] 10)
      "http://x/a" rfl).2.2.2 []

theorem crawlRun_budget : ∀ (ds : List Discovery) (wc : WebCrawler),
    wc.pagesVisited ≤ wc.maxPages →
    (crawlRun wc ds).1.pagesVisited ≤ wc.maxPages ∧
    (crawlRun wc ds).1.maxPages = wc.maxPages
  | [], wc, h => by simpa [crawlRun] using h
  | d :: ds, wc, h => by
    rw [crawlRun]
    dsimp only
    rcases crawlStep_cases wc d with he | ⟨n, hv, hb, h2, h3, h4, h5, h6⟩
    · rw [he]
      exact crawlRun_budget ds wc h
    · have hinv : (crawlStep wc d).1.pagesVisited ≤ (crawlStep wc d).1.maxPages := by
        rw [h5]
        rcases h6 with h6 | h6 <;> omega
      have := crawlRun_budget ds (crawlStep wc d).1 hinv
      rw [h5] at this
      exact this

/-- C2 amended: provided `maxPages ≥ 1`, `pagesVisited` never exceeds
`maxPages` at any point of a run (so at most `maxPages` fetches are
dispatched), and once `pagesVisited` reaches `maxPages` the handler admits
no further task; the seed fetch alone is dispatched unconditionally, which
is why `maxPages ≥ 1` is required (with `maxPages ≤ 0` the seed fetch
already exceeds the budget). -/
theorem budget_invariant_of_positive_maxPages
    (doms : List String) (P : Int) (seedOK : Bool) (ds : List Discovery)
    (wc : WebCrawler) (b : URL) (l : String) (hP : 1 ≤ P) :
    (crawl (NewWebCrawler doms P) seedOK ds).1.pagesVisited ≤ P ∧
    (wc.maxPages ≤ wc.pagesVisited → onHTMLLink wc b l = (wc, none)) := by
  constructor
  · unfold crawl
    cases seedOK with
    | true =>
      have h0 : ((onRequest (NewWebCrawler doms P)).1).pagesVisited ≤
          ((onRequest (NewWebCrawler doms P)).1).maxPages := by
        simp [onRequest, NewWebCrawler]
        omega
      simpa [onRequest, NewWebCrawler] using
        (crawlRun_budget ds (onRequest (NewWebCrawler doms P)).1 h0).1
    | false =>
      have h0 : (NewWebCrawler doms P).pagesVisited ≤ (NewWebCrawler doms P).maxPages := by
        simp [NewWebCrawler]
        omega
      simpa [NewWebCrawler] using (crawlRun_budget ds (NewWebCrawler doms P) h0).1
  · intro hfull
    unfold onHTMLLink
    cases normalizeLink b l with
    | none => rfl
    | some n =>
      dsimp only
      rw [if_pos hfull]

/-- C2 amended witness: a concrete budget-1 run, and a concrete crawler
whose exhausted budget blocks admission of a fresh link. -/
theorem budget_invariant_of_positive_maxPages_witness :
    (crawl (NewWebCrawler ["example.com"] 1) true []).1.pagesVisited ≤ 1 ∧
    ((NewWebCrawler ["example.com"] 0).maxPages ≤
        (NewWebCrawler ["example.com"] 0).pagesVisited →
      onHTMLLink (NewWebCrawler ["example.com"] 0) exBase "/page2" =
        (NewWebCrawler ["example.com"] 0, none)) := by
  exact budget_invariant_of_positive_maxPages ["example.com"] 1 true []
    (NewWebCrawler ["example.com"] 0) exBase "/page2" (by omega)

theorem tryAdmit_contains (wc : WebCrawler) (u : String) :
    ((tryAdmit wc u).2).visitedURLs.contains u = true := by
  rcases tryAdmit_cases wc u with ⟨hv, he⟩ | ⟨hv, he⟩
  · rw [he]; exact hv
  · rw [he]; simp

theorem tryAdmit_rejects (wc : WebCrawler) (u : String)
    (h : wc.visitedURLs.contains u = true) : (tryAdmit wc u).1 = false := by
  unfold tryAdmit
  rw [if_pos h]

theorem normalizeLink_some_render (base : URL) (raw n : String) (u : URL)
    (h : normalizeLink base raw = some n)
    (hp : parseGoURL (absoluteURL base raw) = some u) :
    n = (URL.render { u with fragment := [] }).asString := by
  unfold normalizeLink at h
  by_cases hA : (raw.toList.isEmpty || listHasPre ['#'] raw.toList
      || listHasPre "javascript:".toList raw.toList) = true
  · rw [if_pos hA] at h; exact Option.noConfusion h
  · rw [if_neg hA] at h
    by_cases hB : (absoluteURL base raw).toList.isEmpty = true
    · rw [if_pos hB] at h; exact Option.noConfusion h
    · rw [if_neg hB] at h
      rw [hp] at h
      injection h with h
      exact h.symm

/-- C4: a successfully normalized link is the re-serialization of its
parsed absolute URL with only the fragment erased (scheme, host, path and
query fields untouched); two links whose absolute URLs differ only in the
fragment therefore normalize identically, and the second admission attempt
for them is rejected. -/
theorem normalizeLink_fragment_stripped_dedup (base : URL) (raw1 raw2 n1 n2 : String)
    (u1 u2 : URL) (wc : WebCrawler)
    (h1 : normalizeLink base raw1 = some n1)
    (h2 : normalizeLink base raw2 = some n2)
    (p1 : parseGoURL (absoluteURL base raw1) = some u1)
    (p2 : parseGoURL (absoluteURL base raw2) = some u2)
    (hsame : ({ u1 with fragment := [] } : URL) = { u2 with fragment := [] }) :
    n1 = (URL.render { u1 with fragment := [] }).asString ∧
    n1 = n2 ∧
    (tryAdmit (tryAdmit wc n1).2 n2).1 = false := by
  have e1 := normalizeLink_some_render base raw1 n1 u1 h1 p1
  have e2 := normalizeLink_some_render base raw2 n2 u2 h2 p2
  have hn : n1 = n2 := by rw [e1, e2, hsame]
  refine ⟨e1, hn, ?_⟩
  rw [← hn]
  exact tryAdmit_rejects (tryAdmit wc n1).2 n1 (tryAdmit_contains wc n1)

/-- C4 witness at the spec's example: `/page1#a` and `/page1#b` resolved
against `http://example.com/` both normalize to
`http://example.com/page1`, admitted only once. -/
theorem normalizeLink_fragment_stripped_dedup_witness :
    ("http://example.com/page1" : String) =
      (URL.render { scheme := "http".toList, opq := [], host := "example.com".toList,
                    path := "/page1".toList, query := [], fragment := [] }).asString ∧
    ("http://example.com/page1" : String) = "http://example.com/page1" ∧
    (tryAdmit (tryAdmit (NewWebCrawler ["example.com"] 10) "http://example.com/page1").2
      "http://example.com/page1").1 = false := by
  have := normalizeLink_fragment_stripped_dedup exBase "/page1#a" "/page1#b"
    "http://example.com/page1" "http://example.com/page1"
    { scheme := "http".toList, opq := [], host := "example.com".toList,
      path := "/page1".toList, query := [], fragment := "a".toList }
    { scheme := "http".toList, opq := [], host := "example.com".toList,
      path := "/page1".toList, query := [], fragment := "b".toList }
    (NewWebCrawler ["example.com"] 10)
    (by decide) (by decide) (by decide) (by decide) rfl
  exact this

theorem mem_enqueueChildren (maxDepth d : Nat) (links : List String) (t : CrawlTask)
    (h : t ∈ enqueueChildren maxDepth d links) : t.depth = d + 1 ∧ d + 1 ≤ maxDepth := by
  unfold enqueueChildren at h
  by_cases hd : d + 1 ≤ maxDepth
  · rw [if_pos hd] at h
    rcases List.mem_map.mp h with ⟨u, _, rfl⟩
    exact ⟨rfl, hd⟩
  · rw [if_neg hd] at h
    exact absurd h (List.not_mem_nil t)

theorem frontierRun_depth_le (maxDepth : Nat) (linksOf : String → List String) :
    ∀ (fuel : Nat) (frontier dispatched : List CrawlTask),
      (∀ t ∈ frontier, t.depth ≤ maxDepth) →
      (∀ t ∈ dispatched, t.depth ≤ maxDepth) →
      ∀ t ∈ frontierRun maxDepth linksOf fuel frontier dispatched, t.depth ≤ maxDepth
  | 0, frontier, dispatched, _, hd, t, ht => hd t ht
  | _ + 1, [], dispatched, _, hd, t, ht => hd t ht
  | fuel + 1, tk :: rest, dispatched, hf, hd, t, ht => by
    rw [frontierRun] at ht
    refine frontierRun_depth_le maxDepth linksOf fuel _ _ ?_ ?_ t ht
    · intro x hx
      rcases List.mem_append.mp hx with hx | hx
      · exact hf x (List.mem_cons_of_mem _ hx)
      · have := mem_enqueueChildren maxDepth tk.depth (linksOf tk.url) x hx
        omega
    · intro x hx
      rcases List.mem_append.mp hx with hx | hx
      · exact hd x hx
      · rw [List.mem_singleton] at hx
        rw [hx]
        exact hf tk (List.mem_cons_self _ _)

/-- C6: no task is ever dispatched with depth greater than `maxDepth` —
starting from seed tasks at depth 0, every task the frontier run
dispatches satisfies `depth ≤ maxDepth`, because a link discovered at
depth `d` is enqueued at `d + 1` only when `d + 1 ≤ maxDepth`. -/
theorem depth_bound (maxDepth : Nat) (linksOf : String → List String)
    (fuel : Nat) (seeds : List CrawlTask)
    (hseed : ∀ t ∈ seeds, t.depth = 0) :
    (frontierRun maxDepth linksOf fuel seeds []).all
      (fun t => decide (t.depth ≤ maxDepth)) = true := by
  rw [List.all_eq_true]
  intro t ht
  have h1 : ∀ x ∈ seeds, x.depth ≤ maxDepth := by
    intro x hx
    rw [hseed x hx]
    omega
  have h2 : ∀ x ∈ ([] : List CrawlTask), x.depth ≤ maxDepth := by
    intro x hx
    exact absurd hx (List.not_mem_nil x)
  have := frontierRun_depth_le maxDepth linksOf fuel seeds [] h1 h2 t ht
  simpa using this

/-- C6 witness: a concrete five-step run from one seed at depth 0 with
`maxDepth = 3` dispatches only tasks of depth at most 3. -/
theorem depth_bound_witness :
    (frontierRun 3 (fun _ => ["http://a/next"]) 5
      [{ url := "http://a", depth := 0 }] []).all
      (fun t => decide (t.depth ≤ 3)) = true :=
  depth_bound 3 (fun _ => ["http://a/next"]) 5 [{ url := "http://a", depth := 0 }]
    (by
      intro t ht
      rw [List.mem_singleton] at ht
      subst ht
      rfl)

theorem copyList_eq : ∀ l : List String, copyList l = l
  | [] => rfl
  | x :: rest => by rw [copyList, copyList_eq rest]

/-- C10: `GetFoundLinks` returns a fresh copy of the discovered links —
its result equals the internal `foundLinks`, the returned slice is a new
allocation distinct from the crawler's own, writing through the returned
slice leaves the crawler's slice unchanged, and a second call after such
a write still returns the original contents. -/
theorem getFoundLinks_fresh_copy (hp : SliceHeap) (wc : CrawlerRef) (w : WebCrawler)
    (i : Nat) (v : String) (hv : wc.foundLinksId < hp.slices.length) :
    GetFoundLinks w = w.foundLinks ∧
    readSlice (getFoundLinksRef hp wc).1 (getFoundLinksRef hp wc).2 =
      readSlice hp wc.foundLinksId ∧
    (getFoundLinksRef hp wc).2 ≠ wc.foundLinksId ∧
    readSlice (writeSlice (getFoundLinksRef hp wc).1 (getFoundLinksRef hp wc).2 i v)
      wc.foundLinksId = readSlice hp wc.foundLinksId ∧
    readSlice
      (getFoundLinksRef
        (writeSlice (getFoundLinksRef hp wc).1 (getFoundLinksRef hp wc).2 i v) wc).1
      (getFoundLinksRef
        (writeSlice (getFoundLinksRef hp wc).1 (getFoundLinksRef hp wc).2 i v) wc).2 =
      readSlice hp wc.foundLinksId := by
  have hread : ∀ h2 : SliceHeap,
      readSlice (getFoundLinksRef h2 wc).1 (getFoundLinksRef h2 wc).2 =
        readSlice h2 wc.foundLinksId := by
    intro h2
    unfold getFoundLinksRef allocSlice readSlice
    dsimp only
    rw [List.get?_concat_length, copyList_eq]
    rfl
  have hframe : readSlice (writeSlice (getFoundLinksRef hp wc).1
      (getFoundLinksRef hp wc).2 i v) wc.foundLinksId = readSlice hp wc.foundLinksId := by
    unfold getFoundLinksRef allocSlice writeSlice readSlice
    dsimp only
    rw [List.get?_set_ne _ _ (by omega)]
    rw [List.get?_append hv]
  refine ⟨copyList_eq w.foundLinks, hread hp, ?_, hframe, ?_⟩
  · unfold getFoundLinksRef allocSlice
    dsimp only
    omega
  · rw [hread, hframe]

/-- C10 witness on a concrete heap holding one two-element slice. -/
theorem getFoundLinks_fresh_copy_witness :
    GetFoundLinks (NewWebCrawler ["example.com"] 10) =
      (NewWebCrawler ["example.com"] 10).foundLinks ∧
    readSlice (getFoundLinksRef { slices := [["a", "b"]] } { foundLinksId := 0 }).1
      (getFoundLinksRef { slices := [["a", "b"]] } { foundLinksId := 0 }).2 =
      readSlice { slices := [["a", "b"]] } 0 ∧
    (getFoundLinksRef { slices := [["a", "b"]] } { foundLinksId := 0 }).2 ≠ 0 ∧
    readSlice (writeSlice (getFoundLinksRef { slices := [["a", "b"]] }
        { foundLinksId := 0 }).1
      (getFoundLinksRef { slices := [["a", "b"]] } { foundLinksId := 0 }).2 0 "modified") 0 =
      readSlice { slices := [["a", "b"]] } 0 ∧
    readSlice
      (getFoundLinksRef
        (writeSlice (getFoundLinksRef { slices := [["a", "b"]] } { foundLinksId := 0 }).1
          (getFoundLinksRef { slices := [["a", "b"]] } { foundLinksId := 0 }).2 0 "modified")
        { foundLinksId := 0 }).1
      (getFoundLinksRef
        (writeSlice (getFoundLinksRef { slices := [["a", "b"]] } { foundLinksId := 0 }).1
          (getFoundLinksRef { slices := [["a", "b"]] } { foundLinksId := 0 }).2 0 "modified")
        { foundLinksId := 0 }).2 =
      readSlice { slices := [["a", "b"]] } 0 :=
  getFoundLinks_fresh_copy { slices := [["a", "b"]] } { foundLinksId := 0 }
    (NewWebCrawler ["example.com"] 10) 0 "modified" (by decide)

theorem trimLeft_head : ∀ (l : List Char) (c : Char),
    (trimLeft l).head? = some c → isGoSpace c = false
  | [], c, h => Option.noConfusion h
  | a :: r, c, h => by
    rw [trimLeft] at h
    by_cases ha : isGoSpace a = true
    · rw [if_pos ha] at h
      exact trimLeft_head r c h
    · rw [if_neg ha] at h
      injection h with h
      subst h
      simpa using ha

theorem trimLeft_eq_self : ∀ l : List Char,
    (∀ c, l.head? = some c → isGoSpace c = false) → trimLeft l = l
  | [], _ => rfl
  | a :: r, h => by
    rw [trimLeft, if_neg]
    rw [h a rfl]
    exact Bool.false_ne_true

theorem trimLeft_append : ∀ xs ys : List Char,
    trimLeft (xs ++ ys) = if trimLeft xs = [] then trimLeft ys else trimLeft xs ++ ys
  | [], ys => by simp [trimLeft]
  | a :: r, ys => by
    rw [List.cons_append, trimLeft, trimLeft]
    by_cases ha : isGoSpace a = true
    · rw [if_pos ha, if_pos ha]
      exact trimLeft_append r ys
    · rw [if_neg ha, if_neg ha, if_neg (by simp)]
      rfl

theorem trimRight_head (x : List Char)
    (h : ∀ c, x.head? = some c → isGoSpace c = false) :
    ∀ c, ((trimLeft x.reverse).reverse).head? = some c → isGoSpace c = false := by
  cases x with
  | nil => intro c hc; simp [trimLeft] at hc
  | cons a r =>
    intro c hc
    have ha : isGoSpace a = false := h a rfl
    rw [List.reverse_cons, trimLeft_append] at hc
    have h1 : trimLeft [a] = [a] := by
      rw [trimLeft, if_neg (by rw [ha]; exact Bool.false_ne_true)]
    by_cases h0 : trimLeft r.reverse = []
    · rw [if_pos h0, h1] at hc
      simp at hc
      subst hc
      exact ha
    · rw [if_neg h0, List.reverse_append] at hc
      simp at hc
      subst hc
      exact ha

theorem trimRight_last (x : List Char) :
    ∀ c, ((trimLeft x.reverse).reverse).getLast? = some c → isGoSpace c = false := by
  intro c hc
  rw [List.getLast?_reverse] at hc
  exact trimLeft_head x.reverse c hc

theorem trimSpace_head (l : List Char) :
    ∀ c, (trimSpace l).head? = some c → isGoSpace c = false :=
  trimRight_head (trimLeft l) (trimLeft_head l)

theorem trimSpace_last (l : List Char) :
    ∀ c, (trimSpace l).getLast? = some c → isGoSpace c = false :=
  trimRight_last (trimLeft l)

theorem getLast?_cons_of_ne_nil (a : Char) (l : List Char) (h : l ≠ []) :
    (a :: l).getLast? = l.getLast? := by
  cases l with
  | nil => exact absurd rfl h
  | cons b r => rw [List.getLast?_cons_cons]

theorem replaceDouble_head? : ∀ l : List Char, (replaceDouble l).head? = l.head?
  | [] => rfl
  | [c] => rfl
  | c₁ :: c₂ :: rest => by
    rw [replaceDouble]
    split
    · rename_i hsp
      rw [hsp.1]
      rfl
    · rfl

theorem replaceDouble_ne_nil : ∀ l : List Char, l ≠ [] → replaceDouble l ≠ []
  | [], h => absurd rfl h
  | [c], _ => by rw [replaceDouble]; exact List.cons_ne_nil c []
  | c₁ :: c₂ :: rest, _ => by
    rw [replaceDouble]
    split
    · exact List.cons_ne_nil _ _
    · exact List.cons_ne_nil _ _

theorem replaceDouble_getLast? : ∀ l : List Char, (replaceDouble l).getLast? = l.getLast?
  | [] => rfl
  | [c] => rfl
  | c₁ :: c₂ :: rest => by
    rw [replaceDouble]
    split
    · rename_i hsp
      cases hr : rest with
      | nil =>
        rw [hsp.2]
        rfl
      | cons b r =>
        rw [getLast?_cons_of_ne_nil ' ' (replaceDouble (b :: r))
            (replaceDouble_ne_nil (b :: r) (List.cons_ne_nil b r)),
          replaceDouble_getLast? (b :: r), List.getLast?_cons_cons,
          getLast?_cons_of_ne_nil c₂ (b :: r) (List.cons_ne_nil b r)]
    · rw [getLast?_cons_of_ne_nil c₁ (replaceDouble (c₂ :: rest))
          (replaceDouble_ne_nil (c₂ :: rest) (List.cons_ne_nil c₂ rest)),
        replaceDouble_getLast? (c₂ :: rest), List.getLast?_cons_cons]

theorem mem_replaceDouble : ∀ (l : List Char) (c : Char), c ∈ replaceDouble l → c ∈ l
  | [], _, h => h
  | [a], _, h => h
  | c₁ :: c₂ :: rest, c, h => by
    rw [replaceDouble] at h
    split at h
    · rename_i hsp
      rcases List.mem_cons.mp h with h | h
      · subst h
        rw [hsp.1]
        exact List.mem_cons_self _ _
      · exact List.mem_cons_of_mem _
          (List.mem_cons_of_mem _ (mem_replaceDouble rest c h))
    · rcases List.mem_cons.mp h with h | h
      · subst h
        exact List.mem_cons_self _ _
      · exact List.mem_cons_of_mem _ (mem_replaceDouble (c₂ :: rest) c h)

theorem collapseSpaces_eq (l : List Char) :
    collapseSpaces l =
      if containsDouble l = true then collapseSpaces (replaceDouble l) else l := by
  rw [collapseSpaces]
  by_cases h : containsDouble l = true
  · rw [dif_pos h, if_pos h]
  · rw [dif_neg h, if_neg h]

theorem collapseSpaces_no_double : ∀ l : List Char,
    containsDouble (collapseSpaces l) = false
  | l => by
    by_cases h : containsDouble l = true
    · rw [collapseSpaces_eq, if_pos h]
      exact collapseSpaces_no_double (replaceDouble l)
    · rw [collapseSpaces_eq, if_neg h]
      simpa using h
termination_by l => l.length
decreasing_by exact replaceDouble_length_lt l h

theorem collapseSpaces_head? : ∀ l : List Char, (collapseSpaces l).head? = l.head?
  | l => by
    by_cases h : containsDouble l = true
    · rw [collapseSpaces_eq, if_pos h, collapseSpaces_head? (replaceDouble l),
        replaceDouble_head?]
    · rw [collapseSpaces_eq, if_neg h]
termination_by l => l.length
decreasing_by exact replaceDouble_length_lt l h

theorem collapseSpaces_getLast? : ∀ l : List Char,
    (collapseSpaces l).getLast? = l.getLast?
  | l => by
    by_cases h : containsDouble l = true
    · rw [collapseSpaces_eq, if_pos h, collapseSpaces_getLast? (replaceDouble l),
        replaceDouble_getLast?]
    · rw [collapseSpaces_eq, if_neg h]
termination_by l => l.length
decreasing_by exact replaceDouble_length_lt l h

theorem mem_collapseSpaces : ∀ (l : List Char) (c : Char), c ∈ collapseSpaces l → c ∈ l
  | l, c => by
    by_cases h : containsDouble l = true
    · rw [collapseSpaces_eq, if_pos h]
      intro hm
      exact mem_replaceDouble l c (mem_collapseSpaces (replaceDouble l) c hm)
    · rw [collapseSpaces_eq, if_neg h]
      exact id
termination_by l c => l.length
decreasing_by exact replaceDouble_length_lt l h

theorem collapseSpaces_of_no_double (l : List Char) (h : containsDouble l = false) :
    collapseSpaces l = l := by
  rw [collapseSpaces_eq, if_neg (by rw [h]; exact Bool.false_ne_true)]

theorem replaceNewlines_no_newline (l : List Char) : '\n' ∉ replaceNewlines l := by
  intro hm
  rcases List.mem_map.mp hm with ⟨c, _, hc⟩
  by_cases h : c = '\n'
  · rw [if_pos h] at hc
    exact absurd hc (by decide)
  · rw [if_neg h] at hc
    exact h hc

theorem removeTabs_no_tab (l : List Char) : '\t' ∉ removeTabs l := by
  intro hm
  have := (List.mem_filter.mp hm).2
  simp at this

theorem removeTabs_no_newline (l : List Char) (h : '\n' ∉ l) : '\n' ∉ removeTabs l := by
  intro hm
  exact h (List.mem_filter.mp hm).1

theorem map_head_nonspace (l : List Char)
    (h : ∀ c, l.head? = some c → isGoSpace c = false) :
    ∀ c, (replaceNewlines l).head? = some c → isGoSpace c = false := by
  intro c hc
  rw [replaceNewlines, List.head?_map] at hc
  cases hl : l.head? with
  | none => rw [hl] at hc; exact Option.noConfusion hc
  | some a =>
    rw [hl] at hc
    injection hc with hc
    have ha := h a hl
    have hne : ¬ a = '\n' := by
      intro he
      rw [he] at ha
      exact absurd ha (by decide)
    rw [← hc]
    dsimp only
    rw [if_neg hne]
    exact ha

theorem map_last_nonspace (l : List Char)
    (h : ∀ c, l.getLast? = some c → isGoSpace c = false) :
    ∀ c, (replaceNewlines l).getLast? = some c → isGoSpace c = false := by
  intro c hc
  rw [replaceNewlines, List.getLast?_map] at hc
  cases hl : l.getLast? with
  | none => rw [hl] at hc; exact Option.noConfusion hc
  | some a =>
    rw [hl] at hc
    injection hc with hc
    have ha := h a hl
    have hne : ¬ a = '\n' := by
      intro he
      rw [he] at ha
      exact absurd ha (by decide)
    rw [← hc]
    dsimp only
    rw [if_neg hne]
    exact ha

theorem filter_head_nonspace (l : List Char)
    (h : ∀ c, l.head? = some c → isGoSpace c = false) :
    ∀ c, (removeTabs l).head? = some c → isGoSpace c = false := by
  cases l with
  | nil => intro c hc; simp [removeTabs] at hc
  | cons a r =>
    have ha := h a rfl
    have ht : ¬ a = '\t' := by
      intro he
      rw [he] at ha
      exact absurd ha (by decide)
    intro c hc
    rw [removeTabs, List.filter_cons_of_pos (by simpa using ht)] at hc
    injection hc with hc
    rw [← hc]
    exact ha

theorem removeTabs_reverse (l : List Char) :
    removeTabs l.reverse = (removeTabs l).reverse :=
  List.filter_reverse _ l

theorem filter_last_nonspace (l : List Char)
    (h : ∀ c, l.getLast? = some c → isGoSpace c = false) :
    ∀ c, (removeTabs l).getLast? = some c → isGoSpace c = false := by
  have hrev : ∀ c, l.reverse.head? = some c → isGoSpace c = false := by
    intro c hc2
    rw [List.head?_reverse] at hc2
    exact h c hc2
  intro c hc
  refine filter_head_nonspace l.reverse hrev c ?_
  rw [removeTabs_reverse, List.head?_reverse]
  exact hc

/-- C8: `cleanPrice` is idempotent — cleaning an already-cleaned price is
the identity — and its output never has a leading or trailing space,
never contains a newline or a tab, and never contains two consecutive
spaces. -/
theorem cleanPrice_idempotent_normalized (s : String) :
    cleanPrice (cleanPrice s) = cleanPrice s ∧
    (cleanPrice s).toList.head? ≠ some ' ' ∧
    (cleanPrice s).toList.getLast? ≠ some ' ' ∧
    '\n' ∉ (cleanPrice s).toList ∧
    '\t' ∉ (cleanPrice s).toList ∧
    containsDouble (cleanPrice s).toList = false := by
  have hlist : (cleanPrice s).toList = cleanPriceChars s.toList := rfl
  have hH : ∀ c, (cleanPriceChars s.toList).head? = some c → isGoSpace c = false := by
    intro c hc
    rw [cleanPriceChars, collapseSpaces_head?] at hc
    exact filter_head_nonspace _ (map_head_nonspace _ (trimSpace_head s.toList)) c hc
  have hL : ∀ c, (cleanPriceChars s.toList).getLast? = some c → isGoSpace c = false := by
    intro c hc
    rw [cleanPriceChars, collapseSpaces_getLast?] at hc
    exact filter_last_nonspace _ (map_last_nonspace _ (trimSpace_last s.toList)) c hc
  have hNoNl : '\n' ∉ cleanPriceChars s.toList := by
    rw [cleanPriceChars]
    intro hm
    exact removeTabs_no_newline _ (replaceNewlines_no_newline _)
      (mem_collapseSpaces _ _ hm)
  have hNoTab : '\t' ∉ cleanPriceChars s.toList := by
    rw [cleanPriceChars]
    intro hm
    exact removeTabs_no_tab _ (mem_collapseSpaces _ _ hm)
  have hND : containsDouble (cleanPriceChars s.toList) = false := by
    rw [cleanPriceChars]
    exact collapseSpaces_no_double _
  have hidem : cleanPriceChars (cleanPriceChars s.toList) = cleanPriceChars s.toList := by
    have htrim : trimSpace (cleanPriceChars s.toList) = cleanPriceChars s.toList := by
      have h1 : trimLeft (cleanPriceChars s.toList) = cleanPriceChars s.toList :=
        trimLeft_eq_self _ hH
      have h2 : trimLeft (cleanPriceChars s.toList).reverse =
          (cleanPriceChars s.toList).reverse := by
        refine trimLeft_eq_self _ ?_
        intro c hc
        rw [List.head?_reverse] at hc
        exact hL c hc
      rw [trimSpace, h1, h2, List.reverse_reverse]
    have hmap : replaceNewlines (cleanPriceChars s.toList) = cleanPriceChars s.toList := by
      rw [replaceNewlines]
      have hcong : ∀ a ∈ cleanPriceChars s.toList,
          (fun c => if c = '\n' then ' ' else c) a = id a := by
        intro a ha
        dsimp only
        rw [if_neg (fun he => hNoNl (by rw [← he]; exact ha))]
        rfl
      have := List.map_congr_left hcong
      simpa using this
    have hfilt : removeTabs (cleanPriceChars s.toList) = cleanPriceChars s.toList := by
      rw [removeTabs]
      refine List.filter_eq_self.mpr ?_
      intro a ha
      have hne : ¬ a = '\t' := fun he => hNoTab (by rw [← he]; exact ha)
      simpa using hne
    have hcol : collapseSpaces (cleanPriceChars s.toList) = cleanPriceChars s.toList :=
      collapseSpaces_of_no_double _ hND
    calc cleanPriceChars (cleanPriceChars s.toList)
        = collapseSpaces (removeTabs (replaceNewlines
            (trimSpace (cleanPriceChars s.toList)))) := rfl
      _ = cleanPriceChars s.toList := by rw [htrim, hmap, hfilt, hcol]
  refine ⟨?_, ?_, ?_, ?_, ?_, ?_⟩
  · show (cleanPriceChars (cleanPrice s).toList).asString = (cleanPriceChars s.toList).asString
    rw [hlist, hidem]
  · rw [hlist]
    intro he
    exact absurd (hH ' ' he) (by decide)
  · rw [hlist]
    intro he
    exact absurd (hL ' ' he) (by decide)
  · rw [hlist]
    exact hNoNl
  · rw [hlist]
    exact hNoTab
  · rw [hlist]
    exact hND
